import Mathlib

/-!
# Verification of the memoized getter evaluator (`src/evaluator.js`)

This file gives a shallow embedding of `Evaluator` from `src/evaluator.js`
and proves/refutes the specification claims about it.

Modelling conventions:

* JavaScript runtime values are modelled by the inductive type `JsVal`.
  Plain mutable composites (JS arrays and objects) carry an *address*
  (`Nat`), modelling JS object identity: two values are `===`-identical
  mutable objects exactly when they are the same constructor with the same
  address.  JS `null` and `undefined` are both modelled as `JsVal.undefined`;
  no reachable path of the evaluator distinguishes them.
* The helper modules (`immutable-helpers`, `hash-code`, `is-equal`,
  `key-path`, `getter`, `utils`) are not part of `src/`; the spec (§1, §6)
  declares them external collaborators with fixed interfaces.  They are
  modelled from the spec's interface contracts (each such definition says
  so in its doc comment).
* Compute functions are referenced by a numeric id (`fnId`); their
  behaviour is supplied by an environment `FnEnv`.  A compute function may
  allocate fresh mutable values (it receives and returns the allocator
  counter) and may throw (`none`).
* The evaluator state `Evaluator` carries the cache (`cachedGetters`,
  modelling `this.__cachedGetters`), the allocation counter `nextAddr`
  (modelling the JS heap allocator: every new mutable object gets a fresh
  address), and `trace`, an instrumentation list recording each compute
  function invocation together with its positional arguments.
* JS exceptions are modelled by `Except`: `evaluate` returns the evaluator
  state paired with `Except Err JsVal`, because field mutations performed
  before a throw persist (the cache is a field of `this`).
-/

/-- A JavaScript runtime value.  `immMap`/`immList` are values of the
immutable representation (`Immutable.Map` / `Immutable.List`, keys
modelled as `Nat`); `arr`/`obj` are plain mutable composites carrying
their object identity (address); `prim` is a primitive scalar and
`undefined` stands for `undefined`/`null`. -/
inductive JsVal where
  | undefined
  | prim (n : Nat)
  | immMap (fs : List (Nat × JsVal))
  | immList (xs : List JsVal)
  | arr (a : Nat) (xs : List JsVal)
  | obj (a : Nat) (fs : List (Nat × JsVal))
deriving Repr

/-- Errors surfaced by the evaluator.  `invalidArgument` is the explicit
`throw new Error("evaluate must be passed a keyPath or Getter")`;
`typeError` models calling a missing method (e.g. `state.has` on a
primitive); `referenceError` models reading the unbound identifier
`getter` on line 99 of `evaluator.js`; `computeThrew` is an exception
propagating out of a compute function. -/
inductive Err where
  | invalidArgument
  | typeError
  | referenceError
  | computeThrew
deriving DecidableEq, Repr

/-- First-match lookup in an association list of fields (model of
`Immutable.Map.get`). -/
def fGet : List (Nat × JsVal) → Nat → Option JsVal
  | [], _ => none
  | (k, v) :: fs, c => if k = c then some v else fGet fs c

/-- Modelled from the spec (§6 `isImmutableValue`): discriminates values of
the immutable representation (`helpers.isImmutable`). -/
def isImmutable : JsVal → Bool
  | .immMap _ => true
  | .immList _ => true
  | _ => false

/-- Modelled from the spec (§6): `utils.isArray` — a plain mutable
array. -/
def isArray : JsVal → Bool
  | .arr _ _ => true
  | _ => false

/-- Modelled from the spec (§6): `utils.isObject` — a plain mutable
object. -/
def isObject : JsVal → Bool
  | .obj _ _ => true
  | _ => false

/-- The test `state && state.getIn` from `evaluate` (lines 66-71): true
exactly when `state` is truthy and has a `getIn` method, i.e. when it is
an immutable collection.  Plain arrays/objects and primitives have no
`getIn`; falsy values fail the first conjunct. -/
def hasGetIn : JsVal → Bool
  | .immMap _ => true
  | .immList _ => true
  | _ => false

/-- Modelled from the spec (§6 `StateTree.getAtPath`): `Immutable.getIn`.
Descends one key at a time; descending into anything that is not an
immutable collection yields `undefined`. -/
def getIn : JsVal → List Nat → JsVal
  | v, [] => v
  | .immMap fs, k :: ks =>
      match fGet fs k with
      | some v => getIn v ks
      | none => .undefined
  | .immList xs, k :: ks =>
      match xs.get? k with
      | some v => getIn v ks
      | none => .undefined
  | _, _ :: _ => .undefined

mutual
/-- Modelled from the spec (§3, §6 `StateTree.structuralHash`): an
injective (content-determined) encoding of values into `Nat`, used as the
structural hash.  The spec demands that the hash change exactly when the
content changes, so a perfect hash is the faithful model. -/
def encV : JsVal → Nat
  | .undefined => 0
  | .prim n => 6 * n + 1
  | .immMap fs => 6 * encF fs + 2
  | .immList xs => 6 * encL xs + 3
  | .arr a xs => 6 * Nat.pair a (encL xs) + 4
  | .obj a fs => 6 * Nat.pair a (encF fs) + 5
/-- Encoding of value lists for `encV`. -/
def encL : List JsVal → Nat
  | [] => 0
  | v :: vs => Nat.pair (encV v) (encL vs) + 1
/-- Encoding of field lists for `encV`. -/
def encF : List (Nat × JsVal) → Nat
  | [] => 0
  | (k, v) :: fs => Nat.pair k (Nat.pair (encV v) (encF fs)) + 1
end

/-- `state.hashCode()`: defined for immutable collections; calling it on a
value without a `hashCode` method is a `TypeError`. -/
def structHashE : JsVal → Except Err Nat
  | .immMap fs => .ok (encV (.immMap fs))
  | .immList xs => .ok (encV (.immList xs))
  | _ => .error Err.typeError

/-- `state.has(code)` (used by `__hasStaleValue`, line 133): key presence
for an immutable map, index presence for an immutable list, and a
`TypeError` on anything without a `has` method. -/
def jsHasE : JsVal → Nat → Except Err Bool
  | .immMap fs, c => .ok (fGet fs c).isSome
  | .immList xs, c => .ok (decide (c < xs.length))
  | _, _ => .error Err.typeError

/-- The strict inequality `v !== prim n` used on line 135
(`state.getIn([code, 'stateHashCode']) !== state.hashCode()`): a JS value
is `===` to a number only when it is that primitive number. -/
def jsNeqNum (v : JsVal) (n : Nat) : Bool :=
  match v with
  | .prim m => m != n
  | _ => true

mutual
/-- Modelled from the spec (§6 `toImmutableSnapshot`):
`helpers.toImmutable` (`Immutable.fromJS`): converts plain composites
deeply into the immutable representation, leaving immutable values and
primitives untouched (it does not descend into immutable collections). -/
def toImmutable : JsVal → JsVal
  | .arr _ xs => .immList (toImmutableL xs)
  | .obj _ fs => .immMap (toImmutableF fs)
  | v => v
/-- `toImmutable` on the elements of a plain array. -/
def toImmutableL : List JsVal → List JsVal
  | [] => []
  | v :: vs => toImmutable v :: toImmutableL vs
/-- `toImmutable` on the fields of a plain object. -/
def toImmutableF : List (Nat × JsVal) → List (Nat × JsVal)
  | [] => []
  | (k, v) :: fs => (k, toImmutable v) :: toImmutableF fs
end

mutual
/-- Modelled from the spec (§6 `deepClone`): `utils.cloneDeep`.  Plain
composites are copied recursively, each copy getting a fresh address from
the allocator counter; immutable values and primitives are returned
as-is.  Returns the copy and the advanced counter. -/
def cloneDeep : JsVal → Nat → JsVal × Nat
  | .arr _ xs, n =>
      match cloneDeepL xs (n + 1) with
      | (ys, n') => (.arr n ys, n')
  | .obj _ fs, n =>
      match cloneDeepF fs (n + 1) with
      | (gs, n') => (.obj n gs, n')
  | v, n => (v, n)
/-- `cloneDeep` over array elements, threading the allocator. -/
def cloneDeepL : List JsVal → Nat → List JsVal × Nat
  | [], n => ([], n)
  | v :: vs, n =>
      match cloneDeep v n with
      | (w, n') =>
          match cloneDeepL vs n' with
          | (ws, n'') => (w :: ws, n'')
/-- `cloneDeep` over object fields, threading the allocator. -/
def cloneDeepF : List (Nat × JsVal) → Nat → List (Nat × JsVal) × Nat
  | [], n => ([], n)
  | (k, v) :: fs, n =>
      match cloneDeep v n with
      | (w, n') =>
          match cloneDeepF fs n' with
          | (gs, n'') => ((k, w) :: gs, n'')
end

/-- `deref` (`evaluator.js` lines 20-31): immutable values are shared,
plain mutable composites are deep-cloned (with fresh addresses from the
allocator), primitives are returned unchanged. -/
def deref (v : JsVal) (n : Nat) : JsVal × Nat :=
  if isImmutable v then (v, n)
  else if isArray v || isObject v then cloneDeep v n
  else (v, n)

mutual
/-- Erases every mutable address (sets it to 0): two values are
structurally (deep-)equal exactly when their erasures coincide.  Used to
state value equality up to object identity. -/
def stripAddrs : JsVal → JsVal
  | .arr _ xs => .arr 0 (stripAddrsL xs)
  | .obj _ fs => .obj 0 (stripAddrsF fs)
  | .immMap fs => .immMap (stripAddrsF fs)
  | .immList xs => .immList (stripAddrsL xs)
  | v => v
/-- `stripAddrs` over list elements. -/
def stripAddrsL : List JsVal → List JsVal
  | [] => []
  | v :: vs => stripAddrs v :: stripAddrsL vs
/-- `stripAddrs` over fields. -/
def stripAddrsF : List (Nat × JsVal) → List (Nat × JsVal)
  | [] => []
  | (k, v) :: fs => (k, stripAddrs v) :: stripAddrsF fs
end

mutual
/-- The multiset of addresses of mutable nodes occurring in a value. -/
def addrsOf : JsVal → List Nat
  | .arr a xs => a :: addrsOfL xs
  | .obj a fs => a :: addrsOfF fs
  | .immMap fs => addrsOfF fs
  | .immList xs => addrsOfL xs
  | _ => []
/-- `addrsOf` over list elements. -/
def addrsOfL : List JsVal → List Nat
  | [] => []
  | v :: vs => addrsOf v ++ addrsOfL vs
/-- `addrsOf` over fields. -/
def addrsOfF : List (Nat × JsVal) → List Nat
  | [] => []
  | (_, v) :: fs => addrsOf v ++ addrsOfF fs
end

mutual
/-- Models an in-place JS mutation of the mutable object with address `a`:
its element list is replaced by `repl` in every value that aliases it.
(In JS, mutating an array reached from one reference changes it behind
every other reference to the same object; sharing is by address.) -/
def mutateAddr (a : Nat) (repl : List JsVal) : JsVal → JsVal
  | .arr a' xs => if a' = a then .arr a' repl else .arr a' (mutateAddrL a repl xs)
  | .obj a' fs => .obj a' (mutateAddrF a repl fs)
  | .immMap fs => .immMap (mutateAddrF a repl fs)
  | .immList xs => .immList (mutateAddrL a repl xs)
  | v => v
/-- `mutateAddr` over list elements. -/
def mutateAddrL (a : Nat) (repl : List JsVal) : List JsVal → List JsVal
  | [] => []
  | v :: vs => mutateAddr a repl v :: mutateAddrL a repl vs
/-- `mutateAddr` over fields. -/
def mutateAddrF (a : Nat) (repl : List JsVal) : List (Nat × JsVal) → List (Nat × JsVal)
  | [] => []
  | (k, v) :: fs => (k, mutateAddr a repl v) :: mutateAddrF a repl fs
end

mutual
/-- A value whose mutable nodes all sit outside immutable collections.
`cloneDeep` (like `utils.cloneDeep`) does not descend into immutable
collections, so only for such values is the deep copy guaranteed to share
no mutable node with the original. -/
def cleanVal : JsVal → Bool
  | .arr _ xs => cleanL xs
  | .obj _ fs => cleanF fs
  | .immMap fs => (addrsOfF fs).isEmpty
  | .immList xs => (addrsOfL xs).isEmpty
  | _ => true
/-- `cleanVal` over list elements. -/
def cleanL : List JsVal → Bool
  | [] => true
  | v :: vs => cleanVal v && cleanL vs
/-- `cleanVal` over fields. -/
def cleanF : List (Nat × JsVal) → Bool
  | [] => true
  | (_, v) :: fs => cleanVal v && cleanF fs
end

/-- A KeyPath or a Getter, the two recognized shapes (§3, §9 of the spec:
a closed tagged variant; a Getter is an ordered dependency list plus a
compute function, referenced here by its id). -/
inductive Expr where
  | keyPath (p : List Nat)
  | getter (deps : List Expr) (fnId : Nat)

mutual
/-- Structural size of an expression (used to discriminate fingerprints of
strict subexpressions). -/
def esize : Expr → Nat
  | .keyPath _ => 1
  | .getter ds _ => 1 + esizeL ds
/-- Sum of sizes of a dependency list. -/
def esizeL : List Expr → Nat
  | [] => 0
  | e :: es => esize e + esizeL es
end

/-- Injective encoding of key lists. -/
def encNats : List Nat → Nat
  | [] => 0
  | k :: ks => Nat.pair k (encNats ks) + 1

mutual
/-- Injective payload encoding of expressions (see `hashCode`). -/
def encExpr : Expr → Nat
  | .keyPath p => 2 * encNats p
  | .getter ds f => 2 * Nat.pair f (encExprs ds) + 1
/-- Encoding of dependency lists for `encExpr`. -/
def encExprs : List Expr → Nat
  | [] => 0
  | e :: es => Nat.pair (encExpr e) (encExprs es) + 1
end

/-- Modelled from the spec (§4.1 Fingerprinting, §6 `fingerprint`):
`hash-code.js` maps a Getter/KeyPath to a stable integer identity hash
that is equal for structurally identical getters and distinct for
structurally different ones; we use an injective encoding, paired with
the structural size. -/
def hashCode (e : Expr) : Nat :=
  Nat.pair (esize e) (encExpr e)

/-- Modelled from the spec (§6 `getDependencies`): `getter.js`'s
`getDeps` — the ordered dependency list of a getter. -/
def getDeps : Expr → List Expr
  | .getter ds _ => ds
  | .keyPath _ => []

/-- Modelled from the spec (§6 `getComputeFunction`): `getter.js`'s
`getComputeFn` — the compute function (id) of a getter. -/
def getComputeFn : Expr → Nat
  | .getter _ f => f
  | .keyPath _ => 0

mutual
/-- Fingerprints of all getter-shaped subexpressions (including the
expression itself).  Cache writes only ever happen at these keys. -/
def gsubCodes : Expr → List Nat
  | .keyPath _ => []
  | .getter ds f => hashCode (.getter ds f) :: gsubCodesL ds
/-- `gsubCodes` over a dependency list. -/
def gsubCodesL : List Expr → List Nat
  | [] => []
  | e :: es => gsubCodes e ++ gsubCodesL es
end

/-- A cache entry (`evaluator.js` lines 36-45, 145-152): recorded state
hash, cached value and immutable args snapshot.  `none` models the JS
`null` written by the placeholder insertion on lines 80-84. -/
structure CacheEntry where
  stateHashCode : Option Nat
  value : Option JsVal
  args : Option JsVal
deriving Repr

/-- The placeholder entry `{stateHashCode: null, value: null, args: null}`
inserted on lines 80-84 before a first tracked evaluation. -/
def placeholderEntry : CacheEntry :=
  { stateHashCode := none, value := none, args := none }

/-- First-match lookup in the cache (model of `Immutable.Map.get`/`has`
keyed by getter fingerprints). -/
def mapGet : List (Nat × CacheEntry) → Nat → Option CacheEntry
  | [], _ => none
  | (k, v) :: m, c => if k = c then some v else mapGet m c

/-- `Immutable.Map.set`: replace the entry at the key, or append it. -/
def mapSet : List (Nat × CacheEntry) → Nat → CacheEntry → List (Nat × CacheEntry)
  | [], c, v => [(c, v)]
  | (k, w) :: m, c, v => if k = c then (c, v) :: m else (k, w) :: mapSet m c v

/-- `Immutable.Map.remove`: drop the entry at the key. -/
def mapRemove : List (Nat × CacheEntry) → Nat → List (Nat × CacheEntry)
  | [], _ => []
  | (k, w) :: m, c => if k = c then mapRemove m c else (k, w) :: mapRemove m c

/-- Reading `this.__cachedGetters.getIn([code, 'value'])` (line 93): a
missing entry or a `null` field reads as `undefined`/`null`, both
modelled `undefined`. -/
def entryValue : Option CacheEntry → JsVal
  | some ent =>
      match ent.value with
      | some v => v
      | none => .undefined
  | none => .undefined

/-- The behaviour of the compute functions: an id applied to positional
arguments, with access to the allocator counter; `none` models a throw. -/
def FnEnv : Type :=
  Nat → List JsVal → Nat → Option (JsVal × Nat)

/-- The `Evaluator` instance state: the cache field `__cachedGetters`,
plus the model's allocator counter and the instrumentation trace of
compute-function invocations `(fnId, positional args)`. -/
structure Evaluator where
  cachedGetters : List (Nat × CacheEntry)
  nextAddr : Nat
  trace : List (Nat × List JsVal)

/-- `Evaluator.__isCached` (lines 160-166):
`cache.hasIn([code,'value']) && cache.getIn([code,'stateHashCode']) ===
state.hashCode()`.  Every entry map has a `value` key (even when `null`),
so `hasIn` is entry presence; when an entry exists, `state.hashCode()` is
evaluated (a `TypeError` on a state without that method). -/
def isCached (cache : List (Nat × CacheEntry)) (state : JsVal) (code : Nat) :
    Except Err Bool :=
  match mapGet cache code with
  | none => .ok false
  | some ent =>
      match structHashE state with
      | .error er => .error er
      | .ok sh => .ok (ent.stateHashCode = some sh)

/-- The numeric stand-in for the string key `'stateHashCode'` used in the
path `state.getIn([code, 'stateHashCode'])` on line 134. -/
def stateHashCodeKey : Nat := 0

/-- `Evaluator.__hasStaleValue` (lines 130-136).  Faithful to the source,
which consults `state` — not the cache:
`state.has(code) && state.getIn([code,'stateHashCode']) !==
state.hashCode()`. -/
def hasStaleValue (state : JsVal) (code : Nat) : Except Err Bool :=
  match jsHasE state code with
  | .error er => .error er
  | .ok false => .ok false
  | .ok true =>
      .ok (jsNeqNum (getIn state [code, stateHashCodeKey]) (encV state))

/-- `Evaluator.__cacheValue` (lines 145-152): stores
`{value, args: toImmutable(args), stateHashCode: state.hashCode()}` at the
getter's fingerprint.  `args` arrives as the fresh JS array built on
lines 114-116 (its own address is irrelevant: `toImmutable` erases it).
`state.hashCode()` is total here because every caller has already
successfully hashed or key-tested `state`. -/
def cacheValue (cache : List (Nat × CacheEntry)) (state : JsVal) (code : Nat)
    (args : List JsVal) (value : JsVal) : List (Nat × CacheEntry) :=
  mapSet cache code
    { stateHashCode := some (encV state)
      value := some value
      args := some (toImmutable (.arr 0 args)) }

/-- The tail of the full-recompute path of `evaluate` (lines 111-123),
applied to the outcome of the dependency evaluation (lines 114-116): on
success, the compute function is invoked with the resolved dependency
values as positional arguments (recorded in the trace), a throw
propagates, and when `isTracking` holds the new
`(args, value, stateHash)` triple overwrites the entry (lines 119-121)
before the value is returned (line 123). -/
def finishRecompute (fenv : FnEnv) (state : JsVal) (code : Nat) (isTracking : Bool)
    (fnId : Nat) (r : Evaluator × Except Err (List JsVal)) :
    Evaluator × Except Err JsVal :=
  match r with
  | (ev2, .error er) => (ev2, .error er)
  | (ev2, .ok args) =>
      let ev3 := { ev2 with trace := ev2.trace ++ [(fnId, args)] }
      match fenv fnId args ev3.nextAddr with
      | none => (ev3, .error Err.computeThrew)
      | some (v, n') =>
          let ev4 := { ev3 with nextAddr := n' }
          if isTracking then
            ({ ev4 with cachedGetters := cacheValue ev4.cachedGetters state code args v },
              .ok v)
          else (ev4, .ok v)

mutual
/-- `Evaluator.evaluate` (lines 63-124) on a recognized KeyPath or Getter
(the invalid-argument dispatch is in `evaluate` below).  Returns the
updated evaluator paired with the result or the thrown error; state
mutated before a throw persists, as in JS.

The getter arm follows the source line by line: placeholder insertion and
`isTracking` (lines 77-88), `__isCached` hit with `deref` (lines 91-93),
`__hasStaleValue` (line 95) whose taken branch reads the unbound
identifier `getter` on line 99 and therefore throws a `ReferenceError`
before anything else in that branch can run (so `isEqual` and the
fall-through are unreachable and not modelled), and the full recompute
(lines 112-123). -/
def evalExpr (fenv : FnEnv) (state : JsVal) (track : Bool) :
    Expr → Evaluator → Evaluator × Except Err JsVal
  | .keyPath p, ev =>
      if hasGetIn state then (ev, .ok (getIn state p)) else (ev, .ok state)
  | .getter deps fnId, ev =>
      let code := hashCode (.getter deps fnId)
      let hasEntry := (mapGet ev.cachedGetters code).isSome
      let ev1 :=
        if track && !hasEntry then
          { ev with cachedGetters := mapSet ev.cachedGetters code placeholderEntry }
        else ev
      let isTracking := (track && !hasEntry) || hasEntry
      match isCached ev1.cachedGetters state code with
      | .error er => (ev1, .error er)
      | .ok true =>
          match deref (entryValue (mapGet ev1.cachedGetters code)) ev1.nextAddr with
          | (v, n') => ({ ev1 with nextAddr := n' }, .ok v)
      | .ok false =>
          match hasStaleValue state code with
          | .error er => (ev1, .error er)
          | .ok true => (ev1, .error Err.referenceError)
          | .ok false =>
              finishRecompute fenv state code isTracking fnId
                (evalDeps fenv state track deps ev1)
/-- `deps.map(dep => this.evaluate(state, dep, track))` (lines 114-116):
dependencies evaluated recursively in order, preserving `track`, the
evaluator state threaded left to right, and a thrown error aborting the
map. -/
def evalDeps (fenv : FnEnv) (state : JsVal) (track : Bool) :
    List Expr → Evaluator → Evaluator × Except Err (List JsVal)
  | [], ev => (ev, .ok [])
  | d :: ds, ev =>
      match evalExpr fenv state track d ev with
      | (ev1, .error er) => (ev1, .error er)
      | (ev1, .ok v) =>
          match evalDeps fenv state track ds ev1 with
          | (ev2, .error er) => (ev2, .error er)
          | (ev2, .ok vs) => (ev2, .ok (v :: vs))
end

/-- The argument of `evaluate`: either a recognized shape (`isKeyPath` /
`isGetter`, which are mutually exclusive per spec §6) or any other value,
recognized as neither. -/
inductive EvalInput where
  | expr (e : Expr)
  | invalid (v : JsVal)

/-- `Evaluator.evaluate` (lines 63-74 dispatch): KeyPaths and Getters are
evaluated by `evalExpr`; anything else throws the invalid-argument error
before any state is touched. -/
def evaluate (fenv : FnEnv) (state : JsVal) (inp : EvalInput) (track : Bool)
    (ev : Evaluator) : Evaluator × Except Err JsVal :=
  match inp with
  | .expr e => evalExpr fenv state track e ev
  | .invalid _ => (ev, .error Err.invalidArgument)

/-- `Evaluator.untrack` (lines 172-176): removes the single entry at the
getter's fingerprint. -/
def untrack (g : Expr) (ev : Evaluator) : Evaluator :=
  { ev with cachedGetters := mapRemove ev.cachedGetters (hashCode g) }

/-- `Evaluator.reset` (lines 178-180): clears the cache. -/
def reset (ev : Evaluator) : Evaluator :=
  { ev with cachedGetters := [] }

/-- The effect, on the evaluator's cache, of the caller mutating (in
place) the mutable object with address `a` that `evaluate` returned:
every alias of that object inside cached values and args snapshots is the
same object, so it changes too. -/
def mutateEntry (a : Nat) (repl : List JsVal) (ent : CacheEntry) : CacheEntry :=
  { ent with
      value := ent.value.map (mutateAddr a repl)
      args := ent.args.map (mutateAddr a repl) }

/-- `mutateEntry` applied across the whole cache. -/
def mutateStore (a : Nat) (repl : List JsVal) (ev : Evaluator) : Evaluator :=
  { ev with cachedGetters := ev.cachedGetters.map fun kv => (kv.1, mutateEntry a repl kv.2) }

/-- Number of invocations of compute function `f` recorded in a trace. -/
def countFn (f : Nat) (tr : List (Nat × List JsVal)) : Nat :=
  (tr.filter fun ent => ent.1 = f).length

/-! ## Concrete scenario objects used in counterexamples and witnesses -/

/-- A fresh evaluator (empty cache, allocator at 0, empty trace). -/
def evStart : Evaluator := ⟨[], 0, []⟩

/-- Compute function 7 returns its first dependency value (pure). -/
def fnIdent : FnEnv := fun f args n => if f = 7 then some (args.headD .undefined, n) else none

/-- Every compute function throws. -/
def fnThrow : FnEnv := fun _ _ _ => none

/-- Compute function 5 returns a freshly allocated mutable array holding
its dependency values. -/
def fnArr : FnEnv := fun f args n => if f = 5 then some (.arr n args, n + 1) else none

/-- Every compute function returns the primitive 0 (pure). -/
def fnConst : FnEnv := fun _ _ n => some (.prim 0, n)

/-- A getter over the KeyPath `[0]` with compute function 7. -/
def gIdent : Expr := .getter [.keyPath [0]] 7

/-- A dependency-free getter with compute function 9. -/
def gThrow : Expr := .getter [] 9

/-- A getter over the KeyPath `[0]` with compute function 5. -/
def gArr : Expr := .getter [.keyPath [0]] 5

/-- A getter over the KeyPath `[0]` with compute function 3. -/
def gConst : Expr := .getter [.keyPath [0]] 3

/-- A dependency-free getter with compute function 2. -/
def gNil : Expr := .getter [] 2

/-- A state tree with two keys. -/
def sOne : JsVal := .immMap [(0, .prim 1), (1, .prim 1)]

/-- `sOne` with an unrelated key changed: different structural hash, same
value at path `[0]`. -/
def sTwo : JsVal := .immMap [(0, .prim 1), (1, .prim 2)]

/-- A one-key state tree. -/
def sFour : JsVal := .immMap [(0, .prim 4)]

/-- A pathological state tree containing `gConst`'s fingerprint as a key. -/
def sPathA : JsVal := .immMap [(hashCode gConst, .prim 0), (0, .prim 1)]

/-- A pathological state tree containing `gNil`'s fingerprint as a key. -/
def sPathB : JsVal := .immMap [(hashCode gNil, .prim 0)]

/-- An evaluator with a pre-existing entry for `gNil`. -/
def evEntry : Evaluator :=
  ⟨[(hashCode gNil, ⟨some 5, some (.prim 1), some (.immList [])⟩)], 0, []⟩

/-- An evaluator with a cache-hit-ready entry for `gArr` whose cached
value is the mutable array at address 3. -/
def evArrEntry : Evaluator :=
  ⟨[(hashCode gArr, ⟨some (encV sFour), some (.arr 3 [.prim 4]), none⟩)], 10, []⟩

/-- An evaluator with the allocator at 50. -/
def evFifty : Evaluator := ⟨[], 50, []⟩

/-! ## Basic lemmas about the cache map -/

theorem mapGet_set_self (m : List (Nat × CacheEntry)) (c : Nat) (v : CacheEntry) :
    mapGet (mapSet m c v) c = some v := by
  induction m with
  | nil => simp [mapGet, mapSet]
  | cons kv m ih =>
    obtain ⟨k, w⟩ := kv
    by_cases h : k = c <;> simp [mapGet, mapSet, h, ih]

theorem mapGet_set_ne (m : List (Nat × CacheEntry)) (c c' : Nat) (v : CacheEntry)
    (h : c' ≠ c) : mapGet (mapSet m c v) c' = mapGet m c' := by
  induction m with
  | nil => simp [mapGet, mapSet, Ne.symm h]
  | cons kv m ih =>
    obtain ⟨k, w⟩ := kv
    by_cases hk : k = c
    · subst hk
      simp [mapGet, mapSet, Ne.symm h]
    · simp [mapGet, mapSet, hk, ih]

theorem mapGet_remove_self (m : List (Nat × CacheEntry)) (c : Nat) :
    mapGet (mapRemove m c) c = none := by
  induction m with
  | nil => simp [mapGet, mapRemove]
  | cons kv m ih =>
    obtain ⟨k, w⟩ := kv
    by_cases h : k = c <;> simp [mapGet, mapRemove, h, ih]

theorem mapGet_remove_ne (m : List (Nat × CacheEntry)) (c c' : Nat) (h : c' ≠ c) :
    mapGet (mapRemove m c) c' = mapGet m c' := by
  induction m with
  | nil => simp [mapRemove]
  | cons kv m ih =>
    obtain ⟨k, w⟩ := kv
    by_cases hk : k = c
    · subst hk
      simp [mapGet, mapRemove, Ne.symm h, ih]
    · simp [mapGet, mapRemove, hk, ih]

theorem mapRemove_of_get_none (m : List (Nat × CacheEntry)) (c : Nat)
    (h : mapGet m c = none) : mapRemove m c = m := by
  induction m with
  | nil => simp [mapRemove]
  | cons kv m ih =>
    obtain ⟨k, w⟩ := kv
    by_cases hk : k = c
    · simp [mapGet, hk] at h
    · simp [mapGet, hk] at h
      simp [mapRemove, hk, ih h]

theorem mapRemove_idem (m : List (Nat × CacheEntry)) (c : Nat) :
    mapRemove (mapRemove m c) c = mapRemove m c :=
  mapRemove_of_get_none _ _ (mapGet_remove_self m c)

/-! ## Fingerprints of subexpressions -/

theorem esizeL_mem_le (d : Expr) (ds : List Expr) (h : d ∈ ds) : esize d ≤ esizeL ds := by
  induction ds with
  | nil => cases h
  | cons e es ih =>
    rcases List.mem_cons.mp h with h | h
    · subst h
      rw [esizeL]
      exact Nat.le_add_right _ _
    · calc esize d ≤ esizeL es := ih h
        _ ≤ esize e + esizeL es := Nat.le_add_left _ _
        _ = esizeL (e :: es) := (esizeL.eq_2 e es).symm

theorem hashCode_esize (e₁ e₂ : Expr) (h : hashCode e₁ = hashCode e₂) :
    esize e₁ = esize e₂ :=
  (Nat.pair_eq_pair.mp h).1

mutual
theorem gsubCodes_size (e : Expr) :
    ∀ c ∈ gsubCodes e, ∃ ds f, c = hashCode (.getter ds f) ∧ esize (.getter ds f) ≤ esize e := by
  cases e with
  | keyPath p =>
    intro c hc
    rw [gsubCodes] at hc
    cases hc
  | getter ds f =>
    intro c hc
    rw [gsubCodes] at hc
    rcases List.mem_cons.mp hc with h | h
    · exact ⟨ds, f, h, Nat.le_refl _⟩
    · obtain ⟨ds', f', hc', hle⟩ := gsubCodesL_size ds c h
      refine ⟨ds', f', hc', ?_⟩
      have h1 : esize (Expr.getter ds f) = 1 + esizeL ds := by rw [esize]
      omega
theorem gsubCodesL_size (l : List Expr) :
    ∀ c ∈ gsubCodesL l, ∃ ds f, c = hashCode (.getter ds f) ∧ esize (.getter ds f) ≤ esizeL l := by
  cases l with
  | nil =>
    intro c hc
    rw [gsubCodesL] at hc
    cases hc
  | cons e es =>
    intro c hc
    rw [gsubCodesL] at hc
    rcases List.mem_append.mp hc with h | h
    · obtain ⟨ds', f', hc', hle⟩ := gsubCodes_size e c h
      refine ⟨ds', f', hc', ?_⟩
      have h1 : esizeL (e :: es) = esize e + esizeL es := by rw [esizeL]
      omega
    · obtain ⟨ds', f', hc', hle⟩ := gsubCodesL_size es c h
      refine ⟨ds', f', hc', ?_⟩
      have h1 : esizeL (e :: es) = esize e + esizeL es := by rw [esizeL]
      omega
end

/-- A getter's own fingerprint never occurs among the fingerprints of the
getter-shaped subexpressions of its dependency list: fingerprints
determine the structural size, and every such subexpression is strictly
smaller. -/
theorem code_notin_deps (ds : List Expr) (f : Nat) :
    hashCode (.getter ds f) ∉ gsubCodesL ds := by
  intro h
  obtain ⟨ds', f', hc, hle⟩ := gsubCodesL_size ds _ h
  have hsz := hashCode_esize _ _ hc
  have h1 : esize (Expr.getter ds f) = 1 + esizeL ds := by rw [esize]
  omega

/-! ## The evaluator only writes at fingerprints of getter subexpressions -/

theorem structHashE_err (v : JsVal) (er : Err) (h : structHashE v = .error er) :
    er = Err.typeError := by
  cases v <;> simp only [structHashE, Except.error.injEq, reduceCtorEq] at h <;>
    exact h.symm

theorem jsHasE_err (v : JsVal) (c : Nat) (er : Err) (h : jsHasE v c = .error er) :
    er = Err.typeError := by
  cases v <;> simp only [jsHasE, Except.error.injEq, reduceCtorEq] at h <;>
    exact h.symm

theorem isCached_err (cache : List (Nat × CacheEntry)) (state : JsVal) (code : Nat)
    (er : Err) (h : isCached cache state code = .error er) : er = Err.typeError := by
  rw [isCached] at h
  split at h
  · cases h
  · split at h
    · next heq =>
      cases h
      exact structHashE_err state _ heq
    · cases h

theorem hasStaleValue_err (state : JsVal) (code : Nat) (er : Err)
    (h : hasStaleValue state code = .error er) : er = Err.typeError := by
  rw [hasStaleValue] at h
  split at h
  · next heq =>
    cases h
    exact jsHasE_err state code _ heq
  · cases h
  · cases h

/-- `finishRecompute` writes only at `code`. -/
theorem finishRecompute_cache_outside (fenv : FnEnv) (state : JsVal) (code : Nat)
    (isTracking : Bool) (fnId : Nat) (r : Evaluator × Except Err (List JsVal))
    (c : Nat) (hc : c ≠ code) :
    mapGet ((finishRecompute fenv state code isTracking fnId r).1).cachedGetters c =
      mapGet (r.1).cachedGetters c := by
  rcases r with ⟨ev2, er | args⟩
  · rfl
  · rw [finishRecompute]
    split
    · rfl
    · split
      · exact mapGet_set_ne _ _ _ _ hc
      · rfl

mutual
/-- Evaluation never touches cache keys other than the fingerprints of the
getter-shaped subexpressions of what is being evaluated. -/
theorem evalExpr_cache_outside (fenv : FnEnv) (state : JsVal) (track : Bool)
    (e : Expr) (ev : Evaluator) (c : Nat) (hc : c ∉ gsubCodes e) :
    mapGet ((evalExpr fenv state track e ev).1).cachedGetters c =
      mapGet ev.cachedGetters c := by
  cases e with
  | keyPath p =>
    rw [evalExpr]
    split <;> rfl
  | getter ds f =>
    rw [gsubCodes] at hc
    have hc1 : c ≠ hashCode (.getter ds f) := fun h => hc (h ▸ List.mem_cons_self _ _)
    have hc2 : c ∉ gsubCodesL ds := fun h => hc (List.mem_cons_of_mem _ h)
    have hkey :
        mapGet (if track && !(mapGet ev.cachedGetters (hashCode (Expr.getter ds f))).isSome
          then { ev with
                  cachedGetters :=
                    mapSet ev.cachedGetters (hashCode (Expr.getter ds f)) placeholderEntry }
          else ev).cachedGetters c = mapGet ev.cachedGetters c := by
      split
      · exact mapGet_set_ne _ _ _ _ hc1
      · rfl
    rw [evalExpr]
    split
    · exact hkey
    · split
      exact hkey
    · split
      · exact hkey
      · exact hkey
      · exact (finishRecompute_cache_outside fenv state _ _ _ _ c hc1).trans
          ((evalDeps_cache_outside fenv state track ds _ c hc2).trans hkey)
/-- `evalDeps` version of `evalExpr_cache_outside`. -/
theorem evalDeps_cache_outside (fenv : FnEnv) (state : JsVal) (track : Bool)
    (l : List Expr) (ev : Evaluator) (c : Nat) (hc : c ∉ gsubCodesL l) :
    mapGet ((evalDeps fenv state track l ev).1).cachedGetters c =
      mapGet ev.cachedGetters c := by
  cases l with
  | nil =>
    rw [evalDeps]
  | cons d ds =>
    rw [gsubCodesL] at hc
    have hc1 : c ∉ gsubCodes d := fun h => hc (List.mem_append.mpr (Or.inl h))
    have hc2 : c ∉ gsubCodesL ds := fun h => hc (List.mem_append.mpr (Or.inr h))
    rw [evalDeps]
    split
    · next ev1 er heq =>
      have h1 := evalExpr_cache_outside fenv state track d ev c hc1
      rw [heq] at h1
      exact h1
    · next ev1 v heq =>
      have h1 := evalExpr_cache_outside fenv state track d ev c hc1
      rw [heq] at h1
      split
      · next ev2 er heq2 =>
        have h2 := evalDeps_cache_outside fenv state track ds ev1 c hc2
        rw [heq2] at h2
        exact h2.trans h1
      · next ev2 vs heq2 =>
        have h2 := evalDeps_cache_outside fenv state track ds ev1 c hc2
        rw [heq2] at h2
        exact h2.trans h1
end

/-! ## The invalid-argument error only arises from the top-level dispatch -/

theorem finishRecompute_ne_invalid (fenv : FnEnv) (state : JsVal) (code : Nat)
    (isTracking : Bool) (fnId : Nat) (r : Evaluator × Except Err (List JsVal))
    (hr : r.2 ≠ Except.error Err.invalidArgument) :
    (finishRecompute fenv state code isTracking fnId r).2 ≠
      Except.error Err.invalidArgument := by
  rcases r with ⟨ev2, er | args⟩
  · rw [finishRecompute]
    intro h
    have her : er = Err.invalidArgument := by simpa using h
    exact hr (by simp [her])
  · rw [finishRecompute]
    split
    · simp
    · split <;> simp

mutual
/-- Evaluating a recognized KeyPath or Getter never raises the
invalid-argument error. -/
theorem evalExpr_ne_invalid (fenv : FnEnv) (state : JsVal) (track : Bool)
    (e : Expr) (ev : Evaluator) :
    (evalExpr fenv state track e ev).2 ≠ Except.error Err.invalidArgument := by
  cases e with
  | keyPath p =>
    rw [evalExpr]
    split <;> simp
  | getter ds f =>
    rw [evalExpr]
    split
    · next er heq =>
      have h := isCached_err _ _ _ _ heq
      subst h
      simp
    · split
      simp
    · split
      · next er heq =>
        have h := hasStaleValue_err _ _ _ heq
        subst h
        simp
      · simp
      · exact finishRecompute_ne_invalid _ _ _ _ _ _
          (evalDeps_ne_invalid fenv state track ds _)
/-- `evalDeps` version of `evalExpr_ne_invalid`. -/
theorem evalDeps_ne_invalid (fenv : FnEnv) (state : JsVal) (track : Bool)
    (l : List Expr) (ev : Evaluator) :
    (evalDeps fenv state track l ev).2 ≠ Except.error Err.invalidArgument := by
  cases l with
  | nil =>
    rw [evalDeps]
    simp
  | cons d ds =>
    rw [evalDeps]
    split
    · next ev1 er heq =>
      have h1 := evalExpr_ne_invalid fenv state track d ev
      rw [heq] at h1
      intro h
      have her : er = Err.invalidArgument := by simpa using h
      exact h1 (by simp [her])
    · next ev1 v heq =>
      split
      · next ev2 er heq2 =>
        have h2 := evalDeps_ne_invalid fenv state track ds ev1
        rw [heq2] at h2
        exact h2
      · simp
end

/-! ## Dereference: structure preserved, fresh addresses, mutation safety -/

mutual
theorem stripAddrs_cloneDeep (v : JsVal) (n : Nat) (w : JsVal) (n' : Nat)
    (h : cloneDeep v n = (w, n')) : stripAddrs w = stripAddrs v := by
  cases v with
  | arr a xs =>
    rcases hys : cloneDeepL xs (n + 1) with ⟨ys, m⟩
    simp only [cloneDeep, hys, Prod.mk.injEq] at h
    obtain ⟨rfl, rfl⟩ := h
    rw [stripAddrs, stripAddrs, stripAddrs_cloneDeepL xs (n + 1) ys m hys]
  | obj a fs =>
    rcases hgs : cloneDeepF fs (n + 1) with ⟨gs, m⟩
    simp only [cloneDeep, hgs, Prod.mk.injEq] at h
    obtain ⟨rfl, rfl⟩ := h
    rw [stripAddrs, stripAddrs, stripAddrs_cloneDeepF fs (n + 1) gs m hgs]
  | undefined =>
    simp only [cloneDeep, Prod.mk.injEq] at h
    obtain ⟨rfl, rfl⟩ := h
    rfl
  | prim m =>
    simp only [cloneDeep, Prod.mk.injEq] at h
    obtain ⟨rfl, rfl⟩ := h
    rfl
  | immMap fs =>
    simp only [cloneDeep, Prod.mk.injEq] at h
    obtain ⟨rfl, rfl⟩ := h
    rfl
  | immList xs =>
    simp only [cloneDeep, Prod.mk.injEq] at h
    obtain ⟨rfl, rfl⟩ := h
    rfl
theorem stripAddrs_cloneDeepL (l : List JsVal) (n : Nat) (ys : List JsVal) (n' : Nat)
    (h : cloneDeepL l n = (ys, n')) : stripAddrsL ys = stripAddrsL l := by
  cases l with
  | nil =>
    simp only [cloneDeepL, Prod.mk.injEq] at h
    obtain ⟨rfl, rfl⟩ := h
    rfl
  | cons v vs =>
    rcases hv : cloneDeep v n with ⟨w, m⟩
    rcases hvs : cloneDeepL vs m with ⟨ws, m2⟩
    simp only [cloneDeepL, hv, hvs, Prod.mk.injEq] at h
    obtain ⟨rfl, rfl⟩ := h
    rw [stripAddrsL, stripAddrsL, stripAddrs_cloneDeep v n w m hv,
      stripAddrs_cloneDeepL vs m ws m2 hvs]
theorem stripAddrs_cloneDeepF (l : List (Nat × JsVal)) (n : Nat)
    (gs : List (Nat × JsVal)) (n' : Nat)
    (h : cloneDeepF l n = (gs, n')) : stripAddrsF gs = stripAddrsF l := by
  cases l with
  | nil =>
    simp only [cloneDeepF, Prod.mk.injEq] at h
    obtain ⟨rfl, rfl⟩ := h
    rfl
  | cons kv fs =>
    obtain ⟨k, v⟩ := kv
    rcases hv : cloneDeep v n with ⟨w, m⟩
    rcases hfs : cloneDeepF fs m with ⟨ws, m2⟩
    simp only [cloneDeepF, hv, hfs, Prod.mk.injEq] at h
    obtain ⟨rfl, rfl⟩ := h
    rw [stripAddrsF, stripAddrsF, stripAddrs_cloneDeep v n w m hv,
      stripAddrs_cloneDeepF fs m ws m2 hfs]
end

mutual
theorem cloneDeep_fresh (v : JsVal) (n : Nat) (w : JsVal) (n' : Nat)
    (hcl : cleanVal v = true) (h : cloneDeep v n = (w, n')) :
    n ≤ n' ∧ ∀ a ∈ addrsOf w, n ≤ a := by
  cases v with
  | arr a xs =>
    rw [cleanVal] at hcl
    rcases hys : cloneDeepL xs (n + 1) with ⟨ys, m⟩
    simp only [cloneDeep, hys, Prod.mk.injEq] at h
    obtain ⟨rfl, rfl⟩ := h
    obtain ⟨hm, hge⟩ := cloneDeep_freshL xs (n + 1) ys m hcl hys
    refine ⟨by omega, ?_⟩
    intro b hb
    rw [addrsOf] at hb
    rcases List.mem_cons.mp hb with rfl | hb
    · exact Nat.le_refl _
    · have := hge b hb
      omega
  | obj a fs =>
    rw [cleanVal] at hcl
    rcases hgs : cloneDeepF fs (n + 1) with ⟨gs, m⟩
    simp only [cloneDeep, hgs, Prod.mk.injEq] at h
    obtain ⟨rfl, rfl⟩ := h
    obtain ⟨hm, hge⟩ := cloneDeep_freshF fs (n + 1) gs m hcl hgs
    refine ⟨by omega, ?_⟩
    intro b hb
    rw [addrsOf] at hb
    rcases List.mem_cons.mp hb with rfl | hb
    · exact Nat.le_refl _
    · have := hge b hb
      omega
  | undefined =>
    simp only [cloneDeep, Prod.mk.injEq] at h
    obtain ⟨rfl, rfl⟩ := h
    exact ⟨Nat.le_refl _, by intro b hb; cases hb⟩
  | prim m =>
    simp only [cloneDeep, Prod.mk.injEq] at h
    obtain ⟨rfl, rfl⟩ := h
    exact ⟨Nat.le_refl _, by intro b hb; cases hb⟩
  | immMap fs =>
    rw [cleanVal] at hcl
    simp only [cloneDeep, Prod.mk.injEq] at h
    obtain ⟨rfl, rfl⟩ := h
    refine ⟨Nat.le_refl _, ?_⟩
    intro b hb
    rw [addrsOf] at hb
    rw [List.isEmpty_iff.mp hcl] at hb
    cases hb
  | immList xs =>
    rw [cleanVal] at hcl
    simp only [cloneDeep, Prod.mk.injEq] at h
    obtain ⟨rfl, rfl⟩ := h
    refine ⟨Nat.le_refl _, ?_⟩
    intro b hb
    rw [addrsOf] at hb
    rw [List.isEmpty_iff.mp hcl] at hb
    cases hb
theorem cloneDeep_freshL (l : List JsVal) (n : Nat) (ys : List JsVal) (n' : Nat)
    (hcl : cleanL l = true) (h : cloneDeepL l n = (ys, n')) :
    n ≤ n' ∧ ∀ a ∈ addrsOfL ys, n ≤ a := by
  cases l with
  | nil =>
    simp only [cloneDeepL, Prod.mk.injEq] at h
    obtain ⟨rfl, rfl⟩ := h
    exact ⟨Nat.le_refl _, by intro b hb; cases hb⟩
  | cons v vs =>
    rw [cleanL, Bool.and_eq_true] at hcl
    rcases hv : cloneDeep v n with ⟨w, m⟩
    rcases hvs : cloneDeepL vs m with ⟨ws, m2⟩
    simp only [cloneDeepL, hv, hvs, Prod.mk.injEq] at h
    obtain ⟨rfl, rfl⟩ := h
    obtain ⟨hm1, hge1⟩ := cloneDeep_fresh v n w m hcl.1 hv
    obtain ⟨hm2, hge2⟩ := cloneDeep_freshL vs m ws m2 hcl.2 hvs
    refine ⟨by omega, ?_⟩
    intro b hb
    rw [addrsOfL] at hb
    rcases List.mem_append.mp hb with hb | hb
    · exact hge1 b hb
    · have := hge2 b hb
      omega
theorem cloneDeep_freshF (l : List (Nat × JsVal)) (n : Nat) (gs : List (Nat × JsVal))
    (n' : Nat) (hcl : cleanF l = true) (h : cloneDeepF l n = (gs, n')) :
    n ≤ n' ∧ ∀ a ∈ addrsOfF gs, n ≤ a := by
  cases l with
  | nil =>
    simp only [cloneDeepF, Prod.mk.injEq] at h
    obtain ⟨rfl, rfl⟩ := h
    exact ⟨Nat.le_refl _, by intro b hb; cases hb⟩
  | cons kv fs =>
    obtain ⟨k, v⟩ := kv
    rw [cleanF, Bool.and_eq_true] at hcl
    rcases hv : cloneDeep v n with ⟨w, m⟩
    rcases hfs : cloneDeepF fs m with ⟨ws, m2⟩
    simp only [cloneDeepF, hv, hfs, Prod.mk.injEq] at h
    obtain ⟨rfl, rfl⟩ := h
    obtain ⟨hm1, hge1⟩ := cloneDeep_fresh v n w m hcl.1 hv
    obtain ⟨hm2, hge2⟩ := cloneDeep_freshF fs m ws m2 hcl.2 hfs
    refine ⟨by omega, ?_⟩
    intro b hb
    rw [addrsOfF] at hb
    rcases List.mem_append.mp hb with hb | hb
    · exact hge1 b hb
    · have := hge2 b hb
      omega
end

mutual
theorem mutateAddr_notin (b : Nat) (repl : List JsVal) (v : JsVal)
    (h : b ∉ addrsOf v) : mutateAddr b repl v = v := by
  cases v with
  | arr a xs =>
    rw [addrsOf] at h
    have h1 : ¬a = b := fun he => h (he ▸ List.mem_cons_self _ _)
    have h2 : b ∉ addrsOfL xs := fun hm => h (List.mem_cons_of_mem _ hm)
    rw [mutateAddr, if_neg h1, mutateAddrL_notin b repl xs h2]
  | obj a fs =>
    rw [addrsOf] at h
    have h2 : b ∉ addrsOfF fs := fun hm => h (List.mem_cons_of_mem _ hm)
    rw [mutateAddr, mutateAddrF_notin b repl fs h2]
  | immMap fs =>
    rw [addrsOf] at h
    rw [mutateAddr, mutateAddrF_notin b repl fs h]
  | immList xs =>
    rw [addrsOf] at h
    rw [mutateAddr, mutateAddrL_notin b repl xs h]
  | undefined => rfl
  | prim m => rfl
theorem mutateAddrL_notin (b : Nat) (repl : List JsVal) (l : List JsVal)
    (h : b ∉ addrsOfL l) : mutateAddrL b repl l = l := by
  cases l with
  | nil => rfl
  | cons v vs =>
    rw [addrsOfL] at h
    have h1 : b ∉ addrsOf v := fun hm => h (List.mem_append.mpr (Or.inl hm))
    have h2 : b ∉ addrsOfL vs := fun hm => h (List.mem_append.mpr (Or.inr hm))
    rw [mutateAddrL, mutateAddr_notin b repl v h1, mutateAddrL_notin b repl vs h2]
theorem mutateAddrF_notin (b : Nat) (repl : List JsVal) (l : List (Nat × JsVal))
    (h : b ∉ addrsOfF l) : mutateAddrF b repl l = l := by
  cases l with
  | nil => rfl
  | cons kv fs =>
    obtain ⟨k, v⟩ := kv
    rw [addrsOfF] at h
    have h1 : b ∉ addrsOf v := fun hm => h (List.mem_append.mpr (Or.inl hm))
    have h2 : b ∉ addrsOfF fs := fun hm => h (List.mem_append.mpr (Or.inr hm))
    rw [mutateAddrF, mutateAddr_notin b repl v h1, mutateAddrF_notin b repl fs h2]
end

theorem deref_imm (v : JsVal) (n : Nat) (h : isImmutable v = true) :
    deref v n = (v, n) := by
  simp [deref, h]

theorem stripAddrs_deref (v : JsVal) (n : Nat) :
    stripAddrs (deref v n).1 = stripAddrs v := by
  rw [deref]
  split
  · rfl
  · split
    · rcases hcd : cloneDeep v n with ⟨w, m⟩
      exact stripAddrs_cloneDeep v n w m hcd
    · rfl

theorem deref_fresh (v : JsVal) (n : Nat) (hmut : (isArray v || isObject v) = true)
    (hcl : cleanVal v = true) :
    ∀ a ∈ addrsOf (deref v n).1, n ≤ a := by
  intro a ha
  have himm : isImmutable v = false := by
    cases v <;> simp_all [isArray, isObject, isImmutable]
  rw [deref, himm] at ha
  simp only [Bool.false_eq_true, if_false, hmut, if_true] at ha
  rcases hcd : cloneDeep v n with ⟨w, m⟩
  rw [hcd] at ha
  exact (cloneDeep_fresh v n w m hcl hcd).2 a ha

/-- Mutating, at any address of the value `deref` handed out, a mutable
composite cached value whose addresses are all below the allocator
counter leaves the cached value untouched. -/
theorem deref_mutation_safe (v : JsVal) (n : Nat) (repl : List JsVal)
    (hmut : (isArray v || isObject v) = true) (hcl : cleanVal v = true)
    (hbound : ∀ a ∈ addrsOf v, a < n) :
    ∀ a ∈ addrsOf (deref v n).1, mutateAddr a repl v = v := by
  intro a ha
  apply mutateAddr_notin
  intro hav
  have h1 := deref_fresh v n hmut hcl a ha
  have h2 := hbound a hav
  omega

theorem evalExpr_keyPath (fenv : FnEnv) (state : JsVal) (track : Bool)
    (p : List Nat) (ev : Evaluator) :
    evalExpr fenv state track (.keyPath p) ev =
      (ev, .ok (if hasGetIn state then getIn state p else state)) := by
  rw [evalExpr]
  split <;> rfl

/-- Evaluating a list of KeyPath dependencies changes nothing and
succeeds. -/
theorem evalDeps_keyPaths (fenv : FnEnv) (state : JsVal) (track : Bool)
    (ds : List Expr) (ev : Evaluator) (hds : ∀ d ∈ ds, ∃ p, d = Expr.keyPath p) :
    ∃ vals, evalDeps fenv state track ds ev = (ev, .ok vals) := by
  induction ds generalizing ev with
  | nil => exact ⟨[], by rw [evalDeps]⟩
  | cons d ds ih =>
    obtain ⟨p, rfl⟩ := hds d (List.mem_cons_self _ _)
    obtain ⟨vals, hvals⟩ := ih ev (fun d hd => hds d (List.mem_cons_of_mem _ hd))
    refine ⟨(if hasGetIn state then getIn state p else state) :: vals, ?_⟩
    simp only [evalDeps, evalExpr_keyPath, hvals]

/-! ## Characterizations of the evaluation paths of a getter -/

theorem jsHasE_ok_structHash (state : JsVal) (c : Nat) (b : Bool)
    (h : jsHasE state c = .ok b) : structHashE state = .ok (encV state) := by
  cases state <;> simp [jsHasE, structHashE, encV] at h ⊢

theorem hasStaleValue_ok_jsHas (state : JsVal) (c : Nat) (b : Bool)
    (h : hasStaleValue state c = .ok b) : ∃ b', jsHasE state c = .ok b' := by
  rw [hasStaleValue] at h
  split at h
  · cases h
  · next heq => exact ⟨false, heq⟩
  · next heq => exact ⟨true, heq⟩

theorem isCached_true_inv (cache : List (Nat × CacheEntry)) (state : JsVal) (code : Nat)
    (h : isCached cache state code = .ok true) :
    ∃ ent sh, mapGet cache code = some ent ∧ structHashE state = .ok sh ∧
      ent.stateHashCode = some sh := by
  rw [isCached] at h
  split at h
  · cases h
  · next ent hmg =>
    split at h
    · cases h
    · next sh hsh =>
      refine ⟨ent, sh, hmg, hsh, ?_⟩
      simpa using h

theorem finishRecompute_trace (fenv : FnEnv) (state : JsVal) (code : Nat)
    (isTracking : Bool) (fnId : Nat) (ev2 : Evaluator) (args : List JsVal) :
    (finishRecompute fenv state code isTracking fnId (ev2, .ok args)).1.trace =
      ev2.trace ++ [(fnId, args)] := by
  rw [finishRecompute]
  split
  · rfl
  · split <;> rfl

theorem finishRecompute_true_ok (fenv : FnEnv) (state : JsVal) (code : Nat)
    (fnId : Nat) (r : Evaluator × Except Err (List JsVal)) (ev' : Evaluator) (v : JsVal)
    (h : finishRecompute fenv state code true fnId r = (ev', .ok v)) :
    ∃ ev2 args n', r = (ev2, .ok args) ∧ fenv fnId args ev2.nextAddr = some (v, n') ∧
      ev'.cachedGetters = cacheValue ev2.cachedGetters state code args v ∧
      ev'.trace = ev2.trace ++ [(fnId, args)] := by
  rcases r with ⟨ev2, er | args⟩
  · rw [finishRecompute] at h
    cases h
  · rw [finishRecompute] at h
    split at h
    · cases h
    · next v' n' heq =>
      simp only [if_pos] at h
      obtain ⟨rfl, hv⟩ : ev' = _ ∧ Except.ok v' = Except.ok v := ⟨congrArg Prod.fst h.symm, congrArg Prod.snd h⟩
      obtain rfl : v' = v := by simpa using hv
      exact ⟨ev2, args, n', rfl, heq, rfl, rfl⟩

/-- When an entry for the getter's fingerprint exists and its recorded
state hash equals the current state's hash, `evaluate` takes the exact
cache-hit path: it returns the cached value dereferenced, advances only
the allocator, and leaves the cache and trace untouched. -/
theorem evalExpr_getter_hit (fenv : FnEnv) (state : JsVal) (track : Bool)
    (ds : List Expr) (f : Nat) (ev : Evaluator) (ent : CacheEntry) (sh : Nat)
    (hmg : mapGet ev.cachedGetters (hashCode (.getter ds f)) = some ent)
    (hsh : structHashE state = .ok sh)
    (hent : ent.stateHashCode = some sh) :
    evalExpr fenv state track (.getter ds f) ev =
      ({ ev with nextAddr := (deref (entryValue (some ent)) ev.nextAddr).2 },
        .ok (deref (entryValue (some ent)) ev.nextAddr).1) := by
  have hic : isCached ev.cachedGetters state (hashCode (.getter ds f)) = .ok true := by
    rw [isCached, hmg, hsh]
    simp [hent]
  rw [evalExpr]
  simp only [hmg, Option.isSome_some, Bool.not_true, Bool.and_false, Bool.false_eq_true,
    if_false, hic, hmg]

/-- When no exact cache hit is possible (no entry, or a recorded state
hash different from the current one) and the buggy `__hasStaleValue`
comes out false, `evaluate` takes the full-recompute path. -/
theorem evalExpr_miss (fenv : FnEnv) (state : JsVal) (track : Bool)
    (ds : List Expr) (f : Nat) (ev : Evaluator)
    (hmiss : ∀ ent, mapGet ev.cachedGetters (hashCode (.getter ds f)) = some ent →
      ent.stateHashCode ≠ some (encV state))
    (hstale : hasStaleValue state (hashCode (.getter ds f)) = .ok false) :
    evalExpr fenv state track (.getter ds f) ev =
      finishRecompute fenv state (hashCode (.getter ds f))
        ((track && !(mapGet ev.cachedGetters (hashCode (.getter ds f))).isSome) ||
          (mapGet ev.cachedGetters (hashCode (.getter ds f))).isSome)
        f
        (evalDeps fenv state track ds
          (if track && !(mapGet ev.cachedGetters (hashCode (.getter ds f))).isSome then
            { ev with
                cachedGetters :=
                  mapSet ev.cachedGetters (hashCode (.getter ds f)) placeholderEntry }
          else ev)) := by
  obtain ⟨b', hjs⟩ := hasStaleValue_ok_jsHas state _ _ hstale
  have hcoll := jsHasE_ok_structHash state _ _ hjs
  have hic : isCached
      (if track && !(mapGet ev.cachedGetters (hashCode (.getter ds f))).isSome then
        { ev with
            cachedGetters :=
              mapSet ev.cachedGetters (hashCode (.getter ds f)) placeholderEntry }
      else ev).cachedGetters state (hashCode (.getter ds f)) = .ok false := by
    split
    · rw [isCached]
      simp only [mapGet_set_self, hcoll]
      simp [placeholderEntry]
    · rw [isCached]
      cases hmg : mapGet ev.cachedGetters (hashCode (.getter ds f)) with
      | none => rfl
      | some ent =>
        rw [hcoll]
        simp [hmiss ent hmg]
  rw [evalExpr]
  simp only [hic, hstale]

theorem countFn_append (f : Nat) (t1 t2 : List (Nat × List JsVal)) :
    countFn f (t1 ++ t2) = countFn f t1 + countFn f t2 := by
  simp [countFn, List.filter_append]

/-- After a successful tracked evaluation of a getter with KeyPath
dependencies, the cache holds an entry at the getter\'s fingerprint whose
recorded state hash is the current state\'s hash and whose value is
structurally the returned value; the trace grew by at most the one
invocation of the getter\'s own compute function. -/
theorem evalExpr_ok_entry (fenv : FnEnv) (state : JsVal)
    (ds : List Expr) (f : Nat) (ev ev' : Evaluator) (v : JsVal)
    (hds : ∀ d ∈ ds, ∃ p, d = Expr.keyPath p)
    (h : evalExpr fenv state true (.getter ds f) ev = (ev', .ok v)) :
    ∃ sh ent, structHashE state = .ok sh ∧
      mapGet ev'.cachedGetters (hashCode (.getter ds f)) = some ent ∧
      ent.stateHashCode = some sh ∧
      stripAddrs (entryValue (some ent)) = stripAddrs v ∧
      (ev'.trace = ev.trace ∨ ∃ args, ev'.trace = ev.trace ++ [(f, args)]) := by
  by_cases hb : (mapGet ev.cachedGetters (hashCode (Expr.getter ds f))).isSome = true
  · rw [evalExpr] at h
    simp only [hb, Bool.not_true, Bool.and_false, Bool.false_eq_true, if_false] at h
    split at h
    · simp at h
    · next heqc =>
      obtain ⟨ent, sh, hmg, hsh, hent⟩ := isCached_true_inv _ _ _ heqc
      rw [hmg] at h
      rcases hd : deref (entryValue (some ent)) ev.nextAddr with ⟨w, n'⟩
      rw [hd] at h
      simp only [Prod.mk.injEq, Except.ok.injEq] at h
      obtain ⟨h1, h2⟩ := h
      subst h2
      subst h1
      refine ⟨sh, ent, hsh, hmg, hent, ?_, Or.inl rfl⟩
      have hsd := stripAddrs_deref (entryValue (some ent)) ev.nextAddr
      rw [hd] at hsd
      exact hsd.symm
    · next heqc =>
      split at h
      · simp at h
      · simp at h
      · next heqs =>
        obtain ⟨vals, hvals⟩ := evalDeps_keyPaths fenv state true ds ev hds
        rw [hvals] at h
        obtain ⟨ev2, args, n', hr, hfn, hcg, htr⟩ := finishRecompute_true_ok _ _ _ _ _ _ _ h
        injection hr with hr1 hr2
        injection hr2 with hr2
        subst hr1
        subst hr2
        obtain ⟨b', hjs⟩ := hasStaleValue_ok_jsHas state _ _ heqs
        have hcoll := jsHasE_ok_structHash state _ _ hjs
        refine ⟨encV state,
          { stateHashCode := some (encV state), value := some v,
            args := some (toImmutable (.arr 0 vals)) },
          hcoll, ?_, rfl, rfl, Or.inr ⟨vals, htr⟩⟩
        rw [hcg]
        exact mapGet_set_self _ _ _
  · have hmg0 : mapGet ev.cachedGetters (hashCode (Expr.getter ds f)) = none := by
      cases hmg : mapGet ev.cachedGetters (hashCode (Expr.getter ds f)) with
      | none => rfl
      | some e =>
        rw [hmg] at hb
        simp at hb
    rw [evalExpr] at h
    simp only [hmg0, Option.isSome_none, Bool.not_false, Bool.and_true, if_true,
      Bool.or_false, Bool.and_self] at h
    split at h
    · simp at h
    · next heqc =>
      obtain ⟨ent, sh, hmg, hsh, hent⟩ := isCached_true_inv _ _ _ heqc
      rw [mapGet_set_self] at hmg
      injection hmg with hmg
      rw [← hmg] at hent
      simp [placeholderEntry] at hent
    · next heqc =>
      split at h
      · simp at h
      · simp at h
      · next heqs =>
        obtain ⟨vals, hvals⟩ := evalDeps_keyPaths fenv state true ds
          ({ ev with
              cachedGetters := mapSet ev.cachedGetters (hashCode (Expr.getter ds f))
                placeholderEntry }) hds
        rw [hvals] at h
        obtain ⟨ev2, args, n', hr, hfn, hcg, htr⟩ := finishRecompute_true_ok _ _ _ _ _ _ _ h
        injection hr with hr1 hr2
        injection hr2 with hr2
        subst hr2
        obtain ⟨b', hjs⟩ := hasStaleValue_ok_jsHas state _ _ heqs
        have hcoll := jsHasE_ok_structHash state _ _ hjs
        refine ⟨encV state,
          { stateHashCode := some (encV state), value := some v,
            args := some (toImmutable (.arr 0 vals)) },
          hcoll, ?_, rfl, rfl, Or.inr ⟨vals, ?_⟩⟩
        · rw [hcg, ← hr1]
          exact mapGet_set_self _ _ _
        · rw [htr, ← hr1]

/-- With no entry at the getter's fingerprint, KeyPath dependencies, and a
state without the pathological fingerprint key, evaluation performs a
first-time full recompute: the compute function is invoked once with the
resolved dependency values. -/
theorem evalExpr_firstTime_trace (fenv : FnEnv) (state : JsVal) (track : Bool)
    (ds : List Expr) (f : Nat) (ev : Evaluator)
    (hmg : mapGet ev.cachedGetters (hashCode (.getter ds f)) = none)
    (hds : ∀ d ∈ ds, ∃ p, d = Expr.keyPath p)
    (hstale : hasStaleValue state (hashCode (.getter ds f)) = .ok false) :
    ∃ vals, (evalExpr fenv state track (.getter ds f) ev).1.trace =
      ev.trace ++ [(f, vals)] := by
  have hmiss : ∀ ent, mapGet ev.cachedGetters (hashCode (.getter ds f)) = some ent →
      ent.stateHashCode ≠ some (encV state) := by
    intro ent he
    rw [hmg] at he
    cases he
  rw [evalExpr_miss fenv state track ds f ev hmiss hstale]
  simp only [hmg, Option.isSome_none, Bool.not_false, Bool.and_true]
  cases track with
  | false =>
    simp only [Bool.false_eq_true, if_false]
    obtain ⟨vals, hvals⟩ := evalDeps_keyPaths fenv state false ds ev hds
    rw [hvals, finishRecompute_trace]
    exact ⟨vals, rfl⟩
  | true =>
    simp only [if_true]
    obtain ⟨vals, hvals⟩ := evalDeps_keyPaths fenv state true ds
      ({ ev with
          cachedGetters :=
            mapSet ev.cachedGetters (hashCode (Expr.getter ds f)) placeholderEntry }) hds
    rw [hvals, finishRecompute_trace]
    exact ⟨vals, rfl⟩

/-! ## The claims -/

/-- C5: for every KeyPath `k` and every state, `evaluate(state, k, track)`
returns exactly the value found at path `k` in the state when the state
supports path lookup, and returns the state itself unchanged when it does
not (e.g. a primitive); the evaluator — in particular its cache — is left
completely unchanged, so evaluating a KeyPath never creates a cache
entry. -/
theorem c5_keypath_evaluation (fenv : FnEnv) (state : JsVal) (track : Bool)
    (p : List Nat) (ev : Evaluator) :
    evaluate fenv state (.expr (.keyPath p)) track ev =
      (ev, .ok (if hasGetIn state then getIn state p else state)) :=
  evalExpr_keyPath fenv state track p ev

/-- C6: an input that is neither a recognized KeyPath nor a recognized
Getter makes `evaluate` throw the invalid-argument error synchronously
with the evaluator (hence the cache) unchanged, while a KeyPath or Getter
input never produces the invalid-argument error. -/
theorem c6_invalid_argument_dispatch :
    (∀ (fenv : FnEnv) (state v : JsVal) (track : Bool) (ev : Evaluator),
        evaluate fenv state (.invalid v) track ev =
          (ev, .error Err.invalidArgument)) ∧
    (∀ (fenv : FnEnv) (state : JsVal) (e : Expr) (track : Bool) (ev : Evaluator),
        (evaluate fenv state (.expr e) track ev).2 ≠
          Except.error Err.invalidArgument) :=
  ⟨fun _ _ _ _ _ => rfl, fun fenv state e track ev =>
    evalExpr_ne_invalid fenv state track e ev⟩

/-- Witness for C6 at concrete inputs: a plain number input throws
InvalidArgument leaving the evaluator unchanged, and a getter input does
not produce InvalidArgument. -/
theorem c6_invalid_argument_dispatch_witness :
    evaluate (fun _ _ n => some (.undefined, n)) (.immMap [(0, .prim 1)])
        (.invalid (.prim 3)) true ⟨[], 0, []⟩ =
      ((⟨[], 0, []⟩ : Evaluator), .error Err.invalidArgument) ∧
    ¬((evaluate (fun _ _ n => some (.undefined, n)) (.immMap [(0, .prim 1)])
        (.expr (.getter [.keyPath [0]] 2)) true ⟨[], 0, []⟩).2 =
      Except.error Err.invalidArgument) :=
  ⟨c6_invalid_argument_dispatch.1 _ _ _ _ _,
    c6_invalid_argument_dispatch.2 _ _ _ _ _⟩

/-- C10: `untrack` is idempotent — removing an absent entry leaves the
evaluator exactly as it was, so a second `untrack` of the same getter is
a no-op. -/
theorem c10_untrack_idempotent :
    (∀ (g : Expr) (ev : Evaluator),
        mapGet ev.cachedGetters (hashCode g) = none → untrack g ev = ev) ∧
    (∀ (g : Expr) (ev : Evaluator), untrack g (untrack g ev) = untrack g ev) := by
  constructor
  · intro g ev h
    rw [untrack, mapRemove_of_get_none _ _ h]
  · intro g ev
    simp [untrack, mapRemove_idem]

/-- Witness for C10 at a concrete input: untracking a getter that has no
entry leaves the evaluator unchanged, and untracking twice equals
untracking once. -/
theorem c10_untrack_idempotent_witness :
    untrack (.getter [] 0) ⟨[(5, placeholderEntry)], 7, []⟩ =
      (⟨[(5, placeholderEntry)], 7, []⟩ : Evaluator) ∧
    untrack (.getter [] 0) (untrack (.getter [] 0)
        (⟨[(5, placeholderEntry)], 7, []⟩ : Evaluator)) =
      untrack (.getter [] 0) ⟨[(5, placeholderEntry)], 7, []⟩ :=
  ⟨c10_untrack_idempotent.1 _ _ rfl, c10_untrack_idempotent.2 _ _⟩

/-- C9: `reset` removes every cache entry, and a previously tracked
getter (here: with KeyPath dependencies, against a state not exhibiting
the pathological fingerprint-key collision) is evaluated afterwards as a
first-time full recompute: its compute function is invoked with the
resolved dependency values. -/
theorem c9_reset_clears_and_first_time :
    (∀ (ev : Evaluator) (c : Nat), mapGet (reset ev).cachedGetters c = none) ∧
    (∀ (fenv : FnEnv) (state : JsVal) (track : Bool) (ds : List Expr) (f : Nat)
        (ev : Evaluator),
        (∀ d ∈ ds, ∃ p, d = Expr.keyPath p) →
        hasStaleValue state (hashCode (.getter ds f)) = .ok false →
        ∃ vals, (evalExpr fenv state track (.getter ds f) (reset ev)).1.trace =
          ev.trace ++ [(f, vals)]) := by
  constructor
  · intro ev c
    rfl
  · intro fenv state track ds f ev hds hstale
    exact evalExpr_firstTime_trace fenv state track ds f (reset ev) rfl hds hstale

/-- Witness for C9 at concrete inputs: after `reset`, a previously
tracked getter's compute function is invoked again. -/
theorem c9_reset_clears_and_first_time_witness :
    mapGet (reset evEntry).cachedGetters (hashCode gNil) = none ∧
    ∃ vals, (evalExpr fnConst sOne true gConst (reset evEntry)).1.trace =
      evEntry.trace ++ [(3, vals)] :=
  ⟨c9_reset_clears_and_first_time.1 evEntry (hashCode gNil),
    c9_reset_clears_and_first_time.2 fnConst sOne true [.keyPath [0]] 3 evEntry
      (by
        intro d hd
        rw [List.mem_singleton] at hd
        exact ⟨[0], hd⟩)
      rfl⟩

/-- C8 counterexample: after `untrack`, the next evaluate does **not**
perform a first-time full recompute for *every* tree state, contrary to
the claim's "regardless of tree state": against a state that contains the
getter's fingerprint as a key, the slip in `__hasStaleValue` (which
consults the state) routes evaluation into the stale branch, which throws
a ReferenceError on the unbound identifier `getter` (line 99) without
invoking any compute function. -/
theorem c8_untrack_regardless_cex :
    (evalExpr fnConst sPathB true gNil (untrack gNil evEntry)).2 =
      .error Err.referenceError ∧
    (evalExpr fnConst sPathB true gNil (untrack gNil evEntry)).1.trace = [] :=
  ⟨rfl, rfl⟩

/-- C8 (amended): `untrack` removes exactly the entry at the getter's
fingerprint and leaves every other entry unchanged (no cascade); after
`untrack`, the next evaluate of that getter (with KeyPath dependencies)
performs a first-time full recompute — its compute function is invoked
with the resolved dependency values — for every state that does not
contain the getter's fingerprint as a key (on such pathological states
the buggy `__hasStaleValue` raises a ReferenceError instead). -/
theorem c8_untrack_exact_removal :
    (∀ (g : Expr) (ev : Evaluator),
        mapGet (untrack g ev).cachedGetters (hashCode g) = none) ∧
    (∀ (g : Expr) (ev : Evaluator) (c : Nat), c ≠ hashCode g →
        mapGet (untrack g ev).cachedGetters c = mapGet ev.cachedGetters c) ∧
    (∀ (fenv : FnEnv) (state : JsVal) (track : Bool) (ds : List Expr) (f : Nat)
        (ev : Evaluator),
        (∀ d ∈ ds, ∃ p, d = Expr.keyPath p) →
        hasStaleValue state (hashCode (.getter ds f)) = .ok false →
        ∃ vals, (evalExpr fenv state track (.getter ds f)
            (untrack (.getter ds f) ev)).1.trace = ev.trace ++ [(f, vals)]) := by
  refine ⟨?_, ?_, ?_⟩
  · intro g ev
    exact mapGet_remove_self _ _
  · intro g ev c hc
    exact mapGet_remove_ne _ _ _ hc
  · intro fenv state track ds f ev hds hstale
    exact evalExpr_firstTime_trace fenv state track ds f (untrack (.getter ds f) ev)
      (mapGet_remove_self _ _) hds hstale

/-- Witness for C8 at concrete inputs: the entry is removed, an unrelated
entry survives, and the next evaluate against a benign state invokes the
compute function again. -/
theorem c8_untrack_exact_removal_witness :
    mapGet (untrack gNil evEntry).cachedGetters (hashCode gNil) = none ∧
    mapGet (untrack gConst evEntry).cachedGetters (hashCode gNil) =
      mapGet evEntry.cachedGetters (hashCode gNil) ∧
    ∃ vals, (evalExpr fnConst sOne true gConst (untrack gConst evEntry)).1.trace =
      evEntry.trace ++ [(3, vals)] :=
  ⟨c8_untrack_exact_removal.1 gNil evEntry,
    c8_untrack_exact_removal.2.1 gConst evEntry (hashCode gNil) (by decide),
    c8_untrack_exact_removal.2.2 fnConst sOne true [.keyPath [0]] 3 evEntry
      (by
        intro d hd
        rw [List.mem_singleton] at hd
        exact ⟨[0], hd⟩)
      rfl⟩

/-- C4: for a tracked getter in the spec's scenario (KeyPath dependencies
and compute function `f`), two successive `evaluate` calls against state
snapshots with equal structural hash invoke `f` at most once in total:
the first call may invoke it once, and the second call is an exact cache
hit that invokes no compute function, returns a value structurally equal
(up to object identity of defensive copies) to the first call's result,
and is returned dereferenced from the cache. -/
theorem c4_evaluate_twice_hits (fenv : FnEnv) (s1 s2 : JsVal) (ds : List Expr)
    (f : Nat) (ev0 ev1 : Evaluator) (v1 : JsVal)
    (hds : ∀ d ∈ ds, ∃ p, d = Expr.keyPath p)
    (h1 : evalExpr fenv s1 true (.getter ds f) ev0 = (ev1, .ok v1))
    (hhash : structHashE s2 = structHashE s1) :
    ∃ ev2 v2, evalExpr fenv s2 true (.getter ds f) ev1 = (ev2, .ok v2) ∧
      stripAddrs v2 = stripAddrs v1 ∧
      ev2.trace = ev1.trace ∧
      countFn f ev1.trace ≤ countFn f ev0.trace + 1 := by
  obtain ⟨sh, ent, hsh, hmg, hent, hstrip, htr⟩ :=
    evalExpr_ok_entry fenv s1 ds f ev0 ev1 v1 hds h1
  have hsh2 : structHashE s2 = .ok sh := hhash.trans hsh
  rw [evalExpr_getter_hit fenv s2 true ds f ev1 ent sh hmg hsh2 hent]
  refine ⟨_, _, rfl, ?_, rfl, ?_⟩
  · exact (stripAddrs_deref (entryValue (some ent)) ev1.nextAddr).trans hstrip
  · rcases htr with htr | ⟨args, htr⟩
    · rw [htr]
      omega
    · rw [htr, countFn_append]
      have hone : countFn f [(f, args)] = 1 := by simp [countFn]
      omega

/-- Witness for C4 at concrete inputs: evaluating the same tracked getter
twice against the same state invokes the compute function once in total
and returns equal values. -/
theorem c4_evaluate_twice_hits_witness :
    ∃ ev2 v2, evalExpr fnIdent sOne true gIdent
        (⟨[(hashCode gIdent,
            ⟨some (encV sOne), some (.prim 1), some (.immList [.prim 1])⟩)],
          0, [(7, [.prim 1])]⟩ : Evaluator) = (ev2, .ok v2) ∧
      stripAddrs v2 = stripAddrs (.prim 1) ∧
      ev2.trace = [(7, [.prim 1])] ∧
      countFn 7 [(7, [.prim 1])] ≤ countFn 7 evStart.trace + 1 :=
  c4_evaluate_twice_hits fnIdent sOne sOne [.keyPath [0]] 7 evStart
    (⟨[(hashCode gIdent,
        ⟨some (encV sOne), some (.prim 1), some (.immList [.prim 1])⟩)],
      0, [(7, [.prim 1])]⟩ : Evaluator) (.prim 1)
    (by
      intro d hd
      rw [List.mem_singleton] at hd
      exact ⟨[0], hd⟩)
    rfl
    rfl

/-- C3 counterexample: the claim fails for the value returned by the
*computing* call.  A freshly computed mutable array is returned without
dereferencing (line 123) and stored in the cache as the very same object
(line 120): the returned value and the cache entry share the address 50.
Mutating the returned array afterwards (modelled by rewriting address 50
throughout the evaluator, since every alias is the same object) changes
the result of the subsequent `evaluate` for the same getter and state:
the second call returns an array holding 9 where the first returned 4. -/
theorem c3_computed_value_alias_cex :
    (evalExpr fnArr sFour true gArr evFifty).2 = .ok (.arr 50 [.prim 4]) ∧
    (mapGet (evalExpr fnArr sFour true gArr evFifty).1.cachedGetters
        (hashCode gArr)).map CacheEntry.value =
      some (some (.arr 50 [.prim 4])) ∧
    (evalExpr fnArr sFour true gArr
        (mutateStore 50 [.prim 9] (evalExpr fnArr sFour true gArr evFifty).1)).2 =
      .ok (.arr 51 [.prim 9]) ∧
    stripAddrs (.arr 51 [.prim 9]) ≠ stripAddrs (.arr 50 [.prim 4]) := by
  refine ⟨rfl, rfl, rfl, ?_⟩
  simp [stripAddrs, stripAddrsL]

/-- C3 (amended): the dereference guarantee holds for values *read out of
the cache*: on an exact cache hit the cached value `w` is returned
dereferenced with the cache untouched; an immutable `w` is returned
identity-shared (not copied); a plain mutable `w` (with its mutable nodes
not hidden inside immutable collections, and its addresses already
allocated) is returned as a deep copy sharing no mutable node with the
cache, so mutating the returned copy at any of its addresses leaves the
cached value unchanged.  A freshly computed value, by contrast, is
returned identity-shared with the new cache entry (see the
counterexample). -/
theorem c3_deref_copy_on_hit (fenv : FnEnv) (state : JsVal) (track : Bool)
    (ds : List Expr) (f : Nat) (ev : Evaluator) (ent : CacheEntry) (w : JsVal) (sh : Nat)
    (hmg : mapGet ev.cachedGetters (hashCode (.getter ds f)) = some ent)
    (hsh : structHashE state = .ok sh)
    (hent : ent.stateHashCode = some sh)
    (hw : ent.value = some w) :
    (evalExpr fenv state track (.getter ds f) ev =
      ({ ev with nextAddr := (deref w ev.nextAddr).2 },
        .ok (deref w ev.nextAddr).1)) ∧
    (isImmutable w = true → (deref w ev.nextAddr).1 = w) ∧
    ((isArray w || isObject w) = true → cleanVal w = true →
      (∀ a ∈ addrsOf w, a < ev.nextAddr) →
      ∀ (repl : List JsVal), ∀ a ∈ addrsOf (deref w ev.nextAddr).1,
        mutateAddr a repl w = w) := by
  have hev : entryValue (some ent) = w := by
    rw [entryValue, hw]
  refine ⟨?_, ?_, ?_⟩
  · have hhit := evalExpr_getter_hit fenv state track ds f ev ent sh hmg hsh hent
    rw [hev] at hhit
    exact hhit
  · intro him
    rw [deref_imm w ev.nextAddr him]
  · intro hmut hcl hb repl a ha
    exact deref_mutation_safe w ev.nextAddr repl hmut hcl hb a ha

/-- Witness for C3 (amended) at concrete inputs: a cache hit on a stored
mutable array returns a fresh copy (address 10, not 3), the cache is
unchanged, and mutating the copy's address leaves the stored array
untouched. -/
theorem c3_deref_copy_on_hit_witness :
    (evalExpr fnConst sFour true gArr evArrEntry =
      ({ evArrEntry with nextAddr := (deref (.arr 3 [.prim 4]) 10).2 },
        .ok (deref (.arr 3 [.prim 4]) 10).1)) ∧
    mutateAddr 10 [.prim 9] (.arr 3 [.prim 4]) = .arr 3 [.prim 4] := by
  have h := c3_deref_copy_on_hit fnConst sFour true [.keyPath [0]] 5 evArrEntry
    ⟨some (encV sFour), some (.arr 3 [.prim 4]), none⟩ (.arr 3 [.prim 4]) (encV sFour)
    rfl rfl rfl rfl
  rw [show evArrEntry.nextAddr = 10 from rfl] at h
  refine ⟨h.1, ?_⟩
  refine h.2.2 rfl rfl ?_ [.prim 9] 10 ?_
  · intro a ha
    simp [addrsOf, addrsOfL] at ha
    omega
  · simp [deref, isImmutable, isArray, cloneDeep, cloneDeepL, addrsOf, addrsOfL]

theorem finishRecompute_err_cache (fenv : FnEnv) (state : JsVal) (code : Nat)
    (isTracking : Bool) (fnId : Nat) (r : Evaluator × Except Err (List JsVal))
    (ev' : Evaluator) (er : Err)
    (h : finishRecompute fenv state code isTracking fnId r = (ev', .error er)) :
    ev'.cachedGetters = r.1.cachedGetters := by
  rcases r with ⟨ev2, er2 | args⟩
  · rw [finishRecompute] at h
    injection h with h1 h2
    rw [← h1]
  · rw [finishRecompute] at h
    split at h
    · injection h with h1 h2
      rw [← h1]
    · split at h <;> simp at h

/-- C2 counterexample: a getter's first tracked evaluation whose compute
function throws leaves a *new* entry for the getter's fingerprint in the
cache — the `{stateHashCode: null, value: null, args: null}` placeholder
inserted on lines 79-85 before evaluation — contradicting the claim that
no new entry exists for the fingerprint after a failed recompute. -/
theorem c2_placeholder_survives_throw_cex :
    (evalExpr fnThrow sOne true gThrow evStart).2 = .error Err.computeThrew ∧
    mapGet (evalExpr fnThrow sOne true gThrow evStart).1.cachedGetters
      (hashCode gThrow) = some placeholderEntry :=
  ⟨rfl, rfl⟩

/-- C2 (amended): when evaluating a getter throws (compute function or a
dependency), any previous entry for the getter's fingerprint is unchanged
— no partially written entry replaces it — but if no entry existed and
`track` is true, the placeholder entry `{null, null, null}` inserted
before evaluation remains in the cache; with `track` false and no prior
entry, the cache stays without an entry for the fingerprint. -/
theorem c2_failed_recompute_cache (fenv : FnEnv) (state : JsVal) (track : Bool)
    (ds : List Expr) (f : Nat) (ev ev' : Evaluator) (er : Err)
    (h : evalExpr fenv state track (.getter ds f) ev = (ev', .error er)) :
    mapGet ev'.cachedGetters (hashCode (.getter ds f)) =
      match mapGet ev.cachedGetters (hashCode (.getter ds f)) with
      | some ent => some ent
      | none => if track then some placeholderEntry else none := by
  by_cases hb : (mapGet ev.cachedGetters (hashCode (Expr.getter ds f))).isSome = true
  · obtain ⟨entOld, hmgo⟩ :
        ∃ e, mapGet ev.cachedGetters (hashCode (Expr.getter ds f)) = some e := by
      cases hmm : mapGet ev.cachedGetters (hashCode (Expr.getter ds f)) with
      | none =>
        rw [hmm] at hb
        simp at hb
      | some e => exact ⟨e, rfl⟩
    rw [hmgo]
    show mapGet ev'.cachedGetters (hashCode (Expr.getter ds f)) = some entOld
    rw [evalExpr] at h
    simp only [hmgo, Option.isSome_some, Bool.not_true, Bool.and_false,
      Bool.false_eq_true, if_false] at h
    split at h
    · injection h with h1 h2
      rw [← h1]
      exact hmgo
    · simp at h
    · split at h
      · injection h with h1 h2
        rw [← h1]
        exact hmgo
      · injection h with h1 h2
        rw [← h1]
        exact hmgo
      · have hcg := finishRecompute_err_cache _ _ _ _ _ _ _ _ h
        rw [hcg,
          evalDeps_cache_outside fenv state track ds ev
            (hashCode (Expr.getter ds f)) (code_notin_deps ds f)]
        exact hmgo
  · have hmg0 : mapGet ev.cachedGetters (hashCode (Expr.getter ds f)) = none := by
      cases hmm : mapGet ev.cachedGetters (hashCode (Expr.getter ds f)) with
      | none => rfl
      | some e =>
        rw [hmm] at hb
        simp at hb
    rw [hmg0]
    rw [evalExpr] at h
    simp only [hmg0, Option.isSome_none, Bool.not_false, Bool.and_true] at h
    cases track with
    | false =>
      show mapGet ev'.cachedGetters (hashCode (Expr.getter ds f)) = none
      simp only [Bool.false_eq_true, if_false] at h
      split at h
      · injection h with h1 h2
        rw [← h1]
        exact hmg0
      · simp at h
      · split at h
        · injection h with h1 h2
          rw [← h1]
          exact hmg0
        · injection h with h1 h2
          rw [← h1]
          exact hmg0
        · have hcg := finishRecompute_err_cache _ _ _ _ _ _ _ _ h
          rw [hcg,
            evalDeps_cache_outside fenv state false ds ev
              (hashCode (Expr.getter ds f)) (code_notin_deps ds f)]
          exact hmg0
    | true =>
      show mapGet ev'.cachedGetters (hashCode (Expr.getter ds f)) = some placeholderEntry
      simp only [if_true] at h
      split at h
      · injection h with h1 h2
        rw [← h1]
        exact mapGet_set_self _ _ _
      · simp at h
      · split at h
        · injection h with h1 h2
          rw [← h1]
          exact mapGet_set_self _ _ _
        · injection h with h1 h2
          rw [← h1]
          exact mapGet_set_self _ _ _
        · have hcg := finishRecompute_err_cache _ _ _ _ _ _ _ _ h
          rw [hcg,
            evalDeps_cache_outside fenv state true ds _
              (hashCode (Expr.getter ds f)) (code_notin_deps ds f)]
          exact mapGet_set_self _ _ _

/-- Witness for C2 (amended) at concrete inputs: after a throwing first
tracked evaluation, the cache holds exactly the placeholder entry for the
getter's fingerprint. -/
theorem c2_failed_recompute_cache_witness :
    mapGet (evalExpr fnThrow sOne true gThrow evStart).1.cachedGetters
        (hashCode gThrow) =
      match mapGet evStart.cachedGetters (hashCode gThrow) with
      | some ent => some ent
      | none => if true then some placeholderEntry else none :=
  c2_failed_recompute_cache fnThrow sOne true [] 9 evStart
    (evalExpr fnThrow sOne true gThrow evStart).1 Err.computeThrew rfl

/-- C1 fails on the code, which is wrong: the stale-but-unchanged fast
path is never taken.  `__hasStaleValue` (lines 130-136) consults `state`
instead of `this.__cachedGetters`, so for an ordinary state (which does
not contain the getter's fingerprint as a key) a stale entry routes to a
full recompute; and when a state *does* contain the fingerprint key, the
stale branch reads the unbound identifier `getter` (line 99) and throws.
At the failing input below, all premises of the claim hold — a tracked
getter has an entry recorded against `sOne`, `sTwo` has a different
structural hash, and the re-evaluated dependency values (`prim 1` at path
`[0]`) equal the recorded args snapshot as a whole — yet the trace shows
the compute function invoked a second time, where the claim requires it
not to be invoked. -/
theorem c1_stale_unchanged_still_recomputes :
    encV sOne ≠ encV sTwo ∧
    mapGet (evalExpr fnIdent sOne true gIdent evStart).1.cachedGetters
        (hashCode gIdent) =
      some ⟨some (encV sOne), some (.prim 1), some (.immList [.prim 1])⟩ ∧
    getIn sTwo [0] = .prim 1 ∧
    (evalExpr fnIdent sTwo true gIdent
        (evalExpr fnIdent sOne true gIdent evStart).1).1.trace =
      [(7, [.prim 1]), (7, [.prim 1])] ∧
    (evalExpr fnIdent sTwo true gIdent
        (evalExpr fnIdent sOne true gIdent evStart).1).2 = .ok (.prim 1) :=
  ⟨by decide, rfl, rfl, rfl, rfl⟩

/-- C7 counterexample: the full-recompute path is not taken on every
cache miss.  With no cache entry at all — a case in which the claim
requires dependency evaluation, compute invocation and an entry write —
a state containing the getter's fingerprint as a key makes the buggy
`__hasStaleValue` (which consults the state) come out true, and the
stale branch throws a ReferenceError on the unbound identifier `getter`
(line 99): no dependency or compute function runs. -/
theorem c7_pathological_reference_error_cex :
    mapGet evStart.cachedGetters (hashCode gConst) = none ∧
    (evalExpr fnConst sPathA true gConst evStart).2 = .error Err.referenceError ∧
    (evalExpr fnConst sPathA true gConst evStart).1.trace = [] :=
  ⟨rfl, rfl, rfl⟩

/-- C7 (amended): on a cache miss (no entry, or an entry whose recorded
state hash differs from the current one — in particular when the
re-evaluated dependency values differ from the recorded args), provided
the state does not contain the getter's fingerprint as a key (the buggy
`__hasStaleValue` then throws instead), evaluation takes the full
recompute path: every dependency is evaluated recursively in order with
the `track` flag preserved (the `evalDeps` hypothesis), the compute
function is invoked once with the resolved dependency values as
positional arguments, its result is returned, and exactly when `track`
is true or an entry already existed the `(args, value, stateHash)`
triple overwrites the cache entry. -/
theorem c7_full_recompute (fenv : FnEnv) (state : JsVal) (track : Bool)
    (ds : List Expr) (f : Nat) (ev ev2 : Evaluator) (args : List JsVal)
    (v : JsVal) (n' : Nat)
    (hmiss : ∀ ent, mapGet ev.cachedGetters (hashCode (.getter ds f)) = some ent →
      ent.stateHashCode ≠ some (encV state))
    (hstale : hasStaleValue state (hashCode (.getter ds f)) = .ok false)
    (hdeps : evalDeps fenv state track ds
        (if track && !(mapGet ev.cachedGetters (hashCode (.getter ds f))).isSome then
          { ev with
              cachedGetters :=
                mapSet ev.cachedGetters (hashCode (.getter ds f)) placeholderEntry }
        else ev) = (ev2, .ok args))
    (hfn : fenv f args ev2.nextAddr = some (v, n')) :
    (evalExpr fenv state track (.getter ds f) ev).2 = .ok v ∧
    (evalExpr fenv state track (.getter ds f) ev).1.trace =
      ev2.trace ++ [(f, args)] ∧
    (evalExpr fenv state track (.getter ds f) ev).1.nextAddr = n' ∧
    mapGet (evalExpr fenv state track (.getter ds f) ev).1.cachedGetters
        (hashCode (.getter ds f)) =
      (if track || (mapGet ev.cachedGetters (hashCode (.getter ds f))).isSome then
        some ⟨some (encV state), some v, some (toImmutable (.arr 0 args))⟩
      else mapGet ev2.cachedGetters (hashCode (.getter ds f))) := by
  rw [evalExpr_miss fenv state track ds f ev hmiss hstale, hdeps, finishRecompute]
  simp only [hfn]
  cases htr : track with
  | false =>
    cases hh : (mapGet ev.cachedGetters (hashCode (Expr.getter ds f))).isSome with
    | false => simp [cacheValue, mapGet_set_self]
    | true => simp [cacheValue, mapGet_set_self]
  | true =>
    cases hh : (mapGet ev.cachedGetters (hashCode (Expr.getter ds f))).isSome with
    | false => simp [cacheValue, mapGet_set_self]
    | true => simp [cacheValue, mapGet_set_self]

/-- Witness for C7 (amended) at concrete inputs: a first-time tracked
evaluation performs the full recompute — the compute function runs on the
resolved dependency value and the new triple overwrites the placeholder. -/
theorem c7_full_recompute_witness :
    (evalExpr fnConst sOne true gConst evStart).2 = .ok (.prim 0) ∧
    (evalExpr fnConst sOne true gConst evStart).1.trace = [(3, [.prim 1])] ∧
    (evalExpr fnConst sOne true gConst evStart).1.nextAddr = 0 ∧
    mapGet (evalExpr fnConst sOne true gConst evStart).1.cachedGetters
        (hashCode gConst) =
      (if true || (mapGet evStart.cachedGetters (hashCode gConst)).isSome then
        some ⟨some (encV sOne), some (.prim 0),
          some (toImmutable (.arr 0 [.prim 1]))⟩
      else mapGet (⟨[(hashCode gConst, placeholderEntry)], 0, []⟩ :
        Evaluator).cachedGetters (hashCode gConst)) :=
  c7_full_recompute fnConst sOne true [.keyPath [0]] 3 evStart
    ⟨[(hashCode gConst, placeholderEntry)], 0, []⟩ [.prim 1] (.prim 0) 0
    (by
      intro ent he
      simp [evStart, mapGet] at he)
    rfl rfl rfl
